import Mathlib

set_option maxHeartbeats 1000000
set_option maxRecDepth 100000

/-!
Shallow embedding of AlxLib (`src/AlxLib/Alxlib.h`) and verification of its
specification. C floating-point arithmetic is modelled exactly, over `ℚ`
(and over `ℝ` where the C `pow` function is involved); 32- and 64-bit
unsigned machine arithmetic is modelled as `ℕ` with explicit `% 2^w`
wherever overflow matters.
-/

namespace alx

/-- `#define SMALL_NUMBER (1.e-8f)`. -/
def SMALL_NUMBER : ℚ := 1 / 100000000

namespace tpl

/-- `tpl::Lerp` at floating-point instantiation: `(T)(A + alpha * (B - A))`. -/
noncomputable def Lerp (A B alpha : ℝ) : ℝ := A + alpha * (B - A)

/-- `tpl::InterpEaseIn`: `Lerp(A, B, pow(Alpha, Exp))`; the C `pow` is
modelled by `Real.rpow` (written `^`). -/
noncomputable def InterpEaseIn (A B Alpha Exp : ℝ) : ℝ :=
  Lerp A B (Alpha ^ Exp)

/-- `tpl::InterpEaseOut`: `Lerp(A, B, 1 - pow(1 - Alpha, Exp))`. -/
noncomputable def InterpEaseOut (A B Alpha Exp : ℝ) : ℝ :=
  Lerp A B (1 - (1 - Alpha) ^ Exp)

/-- `tpl::InterpEaseInOut`: splits `alpha` at `0.5`, easing each half. -/
noncomputable def InterpEaseInOut (A B alpha e : ℝ) : ℝ :=
  Lerp A B (if alpha < 0.5 then
    InterpEaseIn 0 1 (alpha * 2) e * 0.5
  else
    InterpEaseOut 0 1 (alpha * 2 - 1) e * 0.5 + 0.5)

/-- `tpl::Clamp`: `value < Min ? Min : value < Max ? value : Max`, generic over
any ordered type as the C++ template is. -/
def Clamp {T : Type} [LinearOrder T] (value Min Max : T) : T :=
  if value < Min then Min else if value < Max then value else Max

/-- C++ `uint32_t` subtraction `B - A` (wraparound modulo `2^32`). -/
def sub32 (B A : ℕ) : ℕ := (((B : ℤ) - (A : ℤ)) % (2 ^ 32 : ℤ)).toNat

/-- C truncation toward zero of a floating-point value. -/
def rtrunc (q : ℚ) : ℤ := if 0 ≤ q then ⌊q⌋ else ⌈q⌉

/-- The C cast `(uint32_t)` applied to a floating-point value: truncate toward
zero; undefined behaviour (`none`) when the truncated value is out of range. -/
def u32cast (q : ℚ) : Option ℕ :=
  if 0 ≤ rtrunc q ∧ rtrunc q < 2 ^ 32 then some (rtrunc q).toNat else none

/-- `tpl::Lerp` at the integral instantiation `T = uint32_t`, `U` floating
point: the subtraction `B - A` happens in `uint32_t` (wraparound), and only
then is the result promoted to floating point, multiplied by `alpha`, added
to `A` and cast back. -/
def LerpU32 (A B : ℕ) (alpha : ℚ) : Option ℕ :=
  u32cast ((A : ℚ) + alpha * ((sub32 B A : ℕ) : ℚ))

/-- Modelled from the spec: the claimed behaviour of `tpl::Lerp` for integral
`T`, where `B - A` is computed with widening arithmetic (exact integer
subtraction, no wraparound in `T`). -/
def LerpU32Widened (A B : ℕ) (alpha : ℚ) : Option ℕ :=
  u32cast ((A : ℚ) + alpha * (((B : ℤ) - (A : ℤ) : ℤ) : ℚ))

end tpl

/-- `fLerp`: float wrapper of `tpl::Lerp`. -/
def fLerp (A B alpha : ℚ) : ℚ := A + alpha * (B - A)

/-- `fClamp`: float wrapper of `tpl::Clamp`. -/
def fClamp (value min max : ℚ) : ℚ :=
  if value < min then min else if value < max then value else max

/-- `NearTolerance(value, errorTolerance)`: `abs(value) <= errorTolerance`.
The C++ default argument `SMALL_NUMBER` is passed explicitly at call sites. -/
def NearTolerance (value errorTolerance : ℚ) : Bool :=
  decide (|value| ≤ errorTolerance)

/-- `GetRangeAlpha(minValue, maxValue, value)`. -/
def GetRangeAlpha (minValue maxValue value : ℚ) : ℚ :=
  let d := maxValue - minValue
  if NearTolerance d SMALL_NUMBER then (if maxValue ≤ value then 1 else 0)
  else (value - minValue) / d

/-- `GetMappedValueUnclamped`. -/
def GetMappedValueUnclamped (inMin inMax outMin outMax value : ℚ) : ℚ :=
  fLerp outMin outMax (GetRangeAlpha inMin inMax value)

/-- `GetMappedValueClamped`. -/
def GetMappedValueClamped (inMin inMax outMin outMax value : ℚ) : ℚ :=
  fLerp outMin outMax (fClamp (GetRangeAlpha inMin inMax value) 0 1)

/-- `LehmerInt64(seed)`: two-round multiply-xor-shift mixer over `uint64_t`. -/
def LehmerInt64 (seed : ℕ) : ℕ :=
  let sLehmer := (seed + 0xe120fc15) % 2 ^ 64
  let tmp1 := (sLehmer * 0x4a39b70d) % 2 ^ 64
  let m1 := (tmp1 >>> 32) ^^^ tmp1
  let tmp2 := (m1 * 0x12fad5c9) % 2 ^ 64
  let m2 := (tmp2 >>> 32) ^^^ tmp2
  m2

/-- The reference algorithm exactly as the spec states it: add `0xe120fc15`
to the seed; multiply by `0x4a39b70d` with wraparound modulo `2^64`; XOR the
product shifted right by 32 bits with the full product; multiply that
intermediate by `0x12fad5c9` with wraparound modulo `2^64`; XOR that product
shifted right by 32 bits with the full product. -/
def lehmerReference (seed : ℕ) : ℕ :=
  let s1 := (seed + 0xe120fc15) % 2 ^ 64
  let p1 := (s1 * 0x4a39b70d) % 2 ^ 64
  let i1 := (p1 >>> 32) ^^^ p1
  let p2 := (i1 * 0x12fad5c9) % 2 ^ 64
  (p2 >>> 32) ^^^ p2

/-- `UINT64_MAX`. -/
def UINT64_MAX : ℕ := 2 ^ 64 - 1

/-- `LehmerFloat(seed)`: `(float)LehmerInt64(seed) / (float)UINT64_MAX`. -/
def LehmerFloat (seed : ℕ) : ℚ :=
  (LehmerInt64 seed : ℚ) / (UINT64_MAX : ℚ)

/-- `randBool(seed)`: `(bool)(LehmerInt64(seed) % 2)`. -/
def randBool (seed : ℕ) : Bool :=
  decide (LehmerInt64 seed % 2 ≠ 0)

/-- The three `static uint64_t seed` counters of the no-seed overloads, one
per entry-point family. Each is zero-initialised at first use. -/
structure RngState where
  intSeed : ℕ
  floatSeed : ℕ
  boolSeed : ℕ

/-- Static counters before any call: all zero-initialised. -/
def initRngState : RngState := ⟨0, 0, 0⟩

/-- `uint64_t LehmerInt64()`: `seed++` (wraparound) then `LehmerInt64(seed)`. -/
def callLehmerInt64 (st : RngState) : ℕ × RngState :=
  let s := (st.intSeed + 1) % 2 ^ 64
  (LehmerInt64 s, { st with intSeed := s })

/-- `float LehmerFloat()`: `seed++` then mix and normalise. -/
def callLehmerFloat (st : RngState) : ℚ × RngState :=
  let s := (st.floatSeed + 1) % 2 ^ 64
  (LehmerFloat s, { st with floatSeed := s })

/-- `bool randBool()`: `seed++` then mix and take parity. -/
def callRandBool (st : RngState) : Bool × RngState :=
  let s := (st.boolSeed + 1) % 2 ^ 64
  (randBool s, { st with boolSeed := s })

/-- State after `k` no-seed calls of the integer entry point. -/
def intCalls : ℕ → RngState
  | 0 => initRngState
  | k + 1 => (callLehmerInt64 (intCalls k)).2

/-- State after `k` no-seed calls of the float entry point. -/
def floatCalls : ℕ → RngState
  | 0 => initRngState
  | k + 1 => (callLehmerFloat (floatCalls k)).2

/-- State after `k` no-seed calls of the bool entry point. -/
def boolCalls : ℕ → RngState
  | 0 => initRngState
  | k + 1 => (callRandBool (boolCalls k)).2

/-- Loop body of the nth-occurrence `findInVector` overload: `i` is the
current index, `iteration` the occurrence counter (starts at 1). -/
def findNthAux {T : Type} [DecidableEq T] (a : T) (nth : ℤ) :
    List T → ℤ → ℤ → ℤ
  | [], _, _ => -1
  | x :: xs, i, iteration =>
    if a = x then
      if iteration = nth then i else findNthAux a nth xs (i + 1) (iteration + 1)
    else findNthAux a nth xs (i + 1) iteration

/-- `findInVector(a, vect, nth)`: index of the nth occurrence of `a`, else
`-1`. -/
def findInVector {T : Type} [DecidableEq T] (a : T) (vect : List T)
    (nth : ℤ) : ℤ :=
  findNthAux a nth vect 0 1

/-- Positions (in order) of the elements equal to `a`: the occurrence
indices against which the nth-occurrence search is specified. -/
def occIndices {T : Type} [DecidableEq T] (a : T) : List T → List ℕ
  | [] => []
  | x :: xs =>
    if a = x then 0 :: (occIndices a xs).map (· + 1)
    else (occIndices a xs).map (· + 1)

/-- `reverseBits(a)`: three swap stages with byte-wide masks. -/
def reverseBits (a : ℕ) : ℕ :=
  let a1 := ((a &&& 0xF0) >>> 4) ||| ((a &&& 0x0F) <<< 4)
  let a2 := ((a1 &&& 0xCC) >>> 2) ||| ((a1 &&& 0x33) <<< 2)
  ((a2 &&& 0xAA) >>> 1) ||| ((a2 &&& 0x55) <<< 1)

/-- The 8-bit reversal of a byte `r < 256`: bit `i` of the input becomes bit
`7 - i` of the output. -/
def bitRev8 (r : ℕ) : ℕ :=
  128 * (r % 2) + 64 * (r / 2 % 2) + 32 * (r / 4 % 2) + 16 * (r / 8 % 2) +
    8 * (r / 16 % 2) + 4 * (r / 32 % 2) + 2 * (r / 64 % 2) + r / 128 % 2

/-- C1: if `|maxValue - minValue|` is within the fixed tolerance `1e-8` of
zero, `GetRangeAlpha` takes the guard branch (no division) and returns `1`
when `value >= maxValue` and `0` otherwise; when the range is not degenerate
it returns `(value - minValue) / (maxValue - minValue)`; in particular
`GetRangeAlpha 5 5 3 = 0` and `GetRangeAlpha 5 5 7 = 1`. -/
theorem getRangeAlpha_spec (minValue maxValue value : ℚ) :
    (|maxValue - minValue| ≤ SMALL_NUMBER →
      GetRangeAlpha minValue maxValue value =
        if maxValue ≤ value then 1 else 0)
    ∧ (¬|maxValue - minValue| ≤ SMALL_NUMBER →
      GetRangeAlpha minValue maxValue value =
        (value - minValue) / (maxValue - minValue))
    ∧ GetRangeAlpha 5 5 3 = 0 ∧ GetRangeAlpha 5 5 7 = 1 := by
  refine ⟨?_, ?_,
    by norm_num [GetRangeAlpha, NearTolerance, SMALL_NUMBER],
    by norm_num [GetRangeAlpha, NearTolerance, SMALL_NUMBER]⟩
  · intro h
    simp [GetRangeAlpha, NearTolerance, h]
  · intro h
    simp [GetRangeAlpha, NearTolerance, h]

/-- Witness for C1: both branches of `getRangeAlpha_spec` instantiated at
concrete inputs. -/
theorem getRangeAlpha_spec_witness :
    GetRangeAlpha 5 5 3 = (if (5 : ℚ) ≤ 3 then 1 else 0)
    ∧ GetRangeAlpha 0 10 5 = ((5 : ℚ) - 0) / (10 - 0) :=
  ⟨(getRangeAlpha_spec 5 5 3).1 (by norm_num [SMALL_NUMBER]),
   (getRangeAlpha_spec 0 10 5).2.1 (by norm_num [SMALL_NUMBER])⟩

/-- C3: `GetMappedValueClamped` clamps the alpha computed by `GetRangeAlpha`
to `[0, 1]` before interpolating, and (when `outMin ≤ outMax`) its result
lies within `[outMin, outMax]`; in particular
`GetMappedValueClamped 0 10 0 100 (-5) = 0` and
`GetMappedValueClamped 0 10 0 100 15 = 100`. -/
theorem getMappedValueClamped_spec (inMin inMax outMin outMax value : ℚ)
    (h : outMin ≤ outMax) :
    GetMappedValueClamped inMin inMax outMin outMax value
      = fLerp outMin outMax (fClamp (GetRangeAlpha inMin inMax value) 0 1)
    ∧ outMin ≤ GetMappedValueClamped inMin inMax outMin outMax value
    ∧ GetMappedValueClamped inMin inMax outMin outMax value ≤ outMax
    ∧ GetMappedValueClamped 0 10 0 100 (-5) = 0
    ∧ GetMappedValueClamped 0 10 0 100 15 = 100 := by
  have hc : ∀ v : ℚ, 0 ≤ fClamp v 0 1 ∧ fClamp v 0 1 ≤ 1 := by
    intro v
    by_cases h1 : v < 0
    · simp [fClamp, h1]
    · by_cases h2 : v < 1
      · refine ⟨?_, ?_⟩ <;> simp [fClamp, h1, h2] <;> linarith
      · simp [fClamp, h1, h2]
  obtain ⟨h0, h1⟩ := hc (GetRangeAlpha inMin inMax value)
  refine ⟨rfl, ?_, ?_,
    by norm_num [GetMappedValueClamped, fLerp, fClamp, GetRangeAlpha,
      NearTolerance, SMALL_NUMBER],
    by norm_num [GetMappedValueClamped, fLerp, fClamp, GetRangeAlpha,
      NearTolerance, SMALL_NUMBER]⟩
  · unfold GetMappedValueClamped fLerp
    nlinarith
  · unfold GetMappedValueClamped fLerp
    nlinarith

/-- Witness for C3: `getRangeAlpha_spec`'s clamped mapping evaluated at the
spec's concrete inputs with `outMin = 0 ≤ 100 = outMax`. -/
theorem getMappedValueClamped_spec_witness :
    GetMappedValueClamped 0 10 0 100 (-5) = 0
    ∧ GetMappedValueClamped 0 10 0 100 15 = 100 :=
  ⟨(getMappedValueClamped_spec 0 10 0 100 (-5) (by norm_num)).2.2.2.1,
   (getMappedValueClamped_spec 0 10 0 100 15 (by norm_num)).2.2.2.2⟩

/-- C5: `Clamp(value, min, max)` returns `value` if `min <= value < max`,
`min` if `value < min`, and `max` otherwise; consequently, whenever
`min <= max` the result lies in `[min, max]`, `Clamp(min, min, max) = min`
and `Clamp(max, min, max) = max`. -/
theorem clamp_spec {T : Type} [LinearOrder T] (value Min Max : T) :
    (Min ≤ value → value < Max → tpl.Clamp value Min Max = value)
    ∧ (value < Min → tpl.Clamp value Min Max = Min)
    ∧ (¬value < Min → ¬value < Max → tpl.Clamp value Min Max = Max)
    ∧ (Min ≤ Max →
        (Min ≤ tpl.Clamp value Min Max ∧ tpl.Clamp value Min Max ≤ Max)
        ∧ tpl.Clamp Min Min Max = Min ∧ tpl.Clamp Max Min Max = Max) := by
  unfold tpl.Clamp
  refine ⟨?_, ?_, ?_, ?_⟩
  · intro h1 h2
    rw [if_neg (not_lt.mpr h1), if_pos h2]
  · intro h1
    rw [if_pos h1]
  · intro h1 h2
    rw [if_neg h1, if_neg h2]
  · intro hmm
    refine ⟨?_, ?_, ?_⟩
    · split_ifs with h1 h2
      · exact ⟨le_refl Min, hmm⟩
      · exact ⟨not_lt.mp h1, le_of_lt h2⟩
      · exact ⟨hmm, le_refl Max⟩
    · split_ifs with h1 h2
      · rfl
      · rfl
      · exact le_antisymm (not_lt.mp h2) hmm
    · split_ifs with h1 h2
      · exact absurd h1 (not_lt.mpr hmm)
      · rfl
      · rfl

/-- Witness for C5: `clamp_spec` at `T = ℤ` with concrete bounds `0 ≤ 10`. -/
theorem clamp_spec_witness :
    tpl.Clamp (5 : ℤ) 0 10 = 5 ∧ tpl.Clamp (-3 : ℤ) 0 10 = 0
    ∧ tpl.Clamp (12 : ℤ) 0 10 = 10
    ∧ (0 ≤ tpl.Clamp (7 : ℤ) 0 10 ∧ tpl.Clamp (7 : ℤ) 0 10 ≤ 10) :=
  ⟨(clamp_spec (5 : ℤ) 0 10).1 (by decide) (by decide),
   (clamp_spec (-3 : ℤ) 0 10).2.1 (by decide),
   (clamp_spec (12 : ℤ) 0 10).2.2.1 (by decide) (by decide),
   ((clamp_spec (7 : ℤ) 0 10).2.2.2 (by decide)).1⟩

/-- C2: `LehmerInt64(seed)` equals the spec's reference mixing algorithm at
every seed, and it is deterministic: equal seeds yield equal outputs. -/
theorem lehmerInt64_spec (seed : ℕ) :
    LehmerInt64 seed = lehmerReference seed
    ∧ ∀ s2 : ℕ, seed = s2 → LehmerInt64 seed = LehmerInt64 s2 :=
  ⟨rfl, fun _ h => by rw [h]⟩

/-- Witness for C2: `lehmerInt64_spec` instantiated at seed 3, with the
determinism hypothesis discharged by `rfl`. -/
theorem lehmerInt64_spec_witness :
    LehmerInt64 3 = lehmerReference 3 ∧ LehmerInt64 3 = LehmerInt64 3 :=
  ⟨(lehmerInt64_spec 3).1, (lehmerInt64_spec 3).2 3 rfl⟩

/-- The integer entry point's counter after `k` no-seed calls is `k % 2^64`. -/
theorem intCalls_intSeed (k : ℕ) : (intCalls k).intSeed = k % 2 ^ 64 := by
  have hm : (2 : ℕ) ^ 64 = 18446744073709551616 := by norm_num
  induction k with
  | zero => rfl
  | succ n ih =>
    show ((intCalls n).intSeed + 1) % 2 ^ 64 = (n + 1) % 2 ^ 64
    rw [ih, hm]
    omega

/-- The float entry point's counter after `k` no-seed calls is `k % 2^64`. -/
theorem floatCalls_floatSeed (k : ℕ) :
    (floatCalls k).floatSeed = k % 2 ^ 64 := by
  have hm : (2 : ℕ) ^ 64 = 18446744073709551616 := by norm_num
  induction k with
  | zero => rfl
  | succ n ih =>
    show ((floatCalls n).floatSeed + 1) % 2 ^ 64 = (n + 1) % 2 ^ 64
    rw [ih, hm]
    omega

/-- The bool entry point's counter after `k` no-seed calls is `k % 2^64`. -/
theorem boolCalls_boolSeed (k : ℕ) :
    (boolCalls k).boolSeed = k % 2 ^ 64 := by
  have hm : (2 : ℕ) ^ 64 = 18446744073709551616 := by norm_num
  induction k with
  | zero => rfl
  | succ n ih =>
    show ((boolCalls n).boolSeed + 1) % 2 ^ 64 = (n + 1) % 2 ^ 64
    rw [ih, hm]
    omega

/-- Bool-entry no-seed calls never touch the other families' counters. -/
theorem boolCalls_others (k : ℕ) :
    (boolCalls k).intSeed = 0 ∧ (boolCalls k).floatSeed = 0 := by
  induction k with
  | zero => exact ⟨rfl, rfl⟩
  | succ n ih => exact ih

/-- Float-entry no-seed calls never touch the other families' counters. -/
theorem floatCalls_others (k : ℕ) :
    (floatCalls k).intSeed = 0 ∧ (floatCalls k).boolSeed = 0 := by
  induction k with
  | zero => exact ⟨rfl, rfl⟩
  | succ n ih => exact ih

/-- Integer-entry no-seed calls never touch the other families' counters. -/
theorem intCalls_others (k : ℕ) :
    (intCalls k).floatSeed = 0 ∧ (intCalls k).boolSeed = 0 := by
  induction k with
  | zero => exact ⟨rfl, rfl⟩
  | succ n ih => exact ih

/-- C4: each no-seed entry-point family (integer, float, bool) owns its own
counter starting at 0, incremented by 1 (as `uint64_t`) on every call and
fed as the seed to the pure mixing function; a family's calls leave the
other families' counters untouched; counters of the first `2^64` calls
never repeat, and any two successive no-seed calls to the same entry point
query the mixing function with distinct seeds. -/
theorem prng_counter_spec :
    (initRngState.intSeed = 0 ∧ initRngState.floatSeed = 0
      ∧ initRngState.boolSeed = 0)
    ∧ (∀ k, (intCalls (k + 1)).intSeed = ((intCalls k).intSeed + 1) % 2 ^ 64
        ∧ (floatCalls (k + 1)).floatSeed
            = ((floatCalls k).floatSeed + 1) % 2 ^ 64
        ∧ (boolCalls (k + 1)).boolSeed
            = ((boolCalls k).boolSeed + 1) % 2 ^ 64)
    ∧ (∀ st : RngState,
        (callLehmerInt64 st).1 = LehmerInt64 ((st.intSeed + 1) % 2 ^ 64)
        ∧ (callLehmerFloat st).1 = LehmerFloat ((st.floatSeed + 1) % 2 ^ 64)
        ∧ (callRandBool st).1 = randBool ((st.boolSeed + 1) % 2 ^ 64))
    ∧ (∀ k, (floatCalls k).intSeed = 0 ∧ (floatCalls k).boolSeed = 0
        ∧ (intCalls k).floatSeed = 0 ∧ (intCalls k).boolSeed = 0
        ∧ (boolCalls k).intSeed = 0 ∧ (boolCalls k).floatSeed = 0)
    ∧ (∀ k, (intCalls (k + 1)).intSeed ≠ (intCalls k).intSeed
        ∧ (floatCalls (k + 1)).floatSeed ≠ (floatCalls k).floatSeed
        ∧ (boolCalls (k + 1)).boolSeed ≠ (boolCalls k).boolSeed)
    ∧ (∀ i j, i < 2 ^ 64 → j < 2 ^ 64 → i ≠ j →
        (intCalls i).intSeed ≠ (intCalls j).intSeed
        ∧ (floatCalls i).floatSeed ≠ (floatCalls j).floatSeed
        ∧ (boolCalls i).boolSeed ≠ (boolCalls j).boolSeed) := by
  have hm : (2 : ℕ) ^ 64 = 18446744073709551616 := by norm_num
  refine ⟨⟨rfl, rfl, rfl⟩, fun k => ⟨rfl, rfl, rfl⟩,
    fun st => ⟨rfl, rfl, rfl⟩, ?_, ?_, ?_⟩
  · intro k
    exact ⟨(floatCalls_others k).1, (floatCalls_others k).2,
      (intCalls_others k).1, (intCalls_others k).2,
      (boolCalls_others k).1, (boolCalls_others k).2⟩
  · intro k
    refine ⟨?_, ?_, ?_⟩
    · rw [intCalls_intSeed, intCalls_intSeed, hm]
      omega
    · rw [floatCalls_floatSeed, floatCalls_floatSeed, hm]
      omega
    · rw [boolCalls_boolSeed, boolCalls_boolSeed, hm]
      omega
  · intro i j hi hj hij
    rw [hm] at hi hj
    refine ⟨?_, ?_, ?_⟩
    · rw [intCalls_intSeed, intCalls_intSeed, hm]
      omega
    · rw [floatCalls_floatSeed, floatCalls_floatSeed, hm]
      omega
    · rw [boolCalls_boolSeed, boolCalls_boolSeed, hm]
      omega

/-- Witness for C4: calls 1 and 2 of each entry point use distinct seeds. -/
theorem prng_counter_spec_witness :
    (intCalls 1).intSeed ≠ (intCalls 2).intSeed
    ∧ (floatCalls 1).floatSeed ≠ (floatCalls 2).floatSeed
    ∧ (boolCalls 1).boolSeed ≠ (boolCalls 2).boolSeed :=
  prng_counter_spec.2.2.2.2.2 1 2 (by norm_num) (by norm_num) (by norm_num)

/-- C6: `InterpEaseInOut(A, B, 0.5, Exp)` equals the value of the rescaled,
halved ease-in half-branch at the boundary, and equals the value of the
rescaled, halved, offset ease-out half-branch there: the piecewise
construction is continuous at `alpha = 0.5`, with common value
`Lerp(A, B, 0.5)`. -/
theorem interpEaseInOut_midpoint (A B Exp : ℝ) :
    tpl.InterpEaseInOut A B 0.5 Exp
      = tpl.Lerp A B (tpl.InterpEaseIn 0 1 (0.5 * 2) Exp * 0.5)
    ∧ tpl.InterpEaseInOut A B 0.5 Exp
      = tpl.Lerp A B (tpl.InterpEaseOut 0 1 (0.5 * 2 - 1) Exp * 0.5 + 0.5)
    ∧ tpl.InterpEaseInOut A B 0.5 Exp = tpl.Lerp A B 0.5 := by
  have h1 : ∀ x : ℝ, (1 : ℝ) ^ x = 1 := fun x => Real.one_rpow x
  unfold tpl.InterpEaseInOut tpl.InterpEaseIn tpl.InterpEaseOut tpl.Lerp
  norm_num [h1]

/-- Counterexample for C7: at `T = uint32_t`, `A = 10`, `B = 5`,
`alpha = 1/2`, the code's `B - A` wraps around modulo `2^32`
(`5 - 10 = 4294967291`), so `Lerp` returns `2147483655` instead of the `7`
the widening computation `10 + (1/2) * (5 - 10)` would give. -/
theorem lerpU32_widening_counterexample :
    tpl.LerpU32 10 5 (1 / 2) = some 2147483655
    ∧ tpl.LerpU32Widened 10 5 (1 / 2) = some 7
    ∧ tpl.LerpU32 10 5 (1 / 2) ≠ tpl.LerpU32Widened 10 5 (1 / 2) := by
  have hsub : tpl.sub32 5 10 = 4294967291 := by decide
  have hfloor : ⌊(4294967311 : ℚ) / 2⌋ = 2147483655 := by
    rw [Int.floor_eq_iff]
    constructor <;> norm_num
  have hfloor2 : ⌊(15 : ℚ) / 2⌋ = 7 := by
    rw [Int.floor_eq_iff]
    constructor <;> norm_num
  have ht : tpl.rtrunc ((4294967311 : ℚ) / 2) = 2147483655 := by
    unfold tpl.rtrunc
    rw [if_pos (by norm_num : (0 : ℚ) ≤ 4294967311 / 2), hfloor]
  have ht2 : tpl.rtrunc ((15 : ℚ) / 2) = 7 := by
    unfold tpl.rtrunc
    rw [if_pos (by norm_num : (0 : ℚ) ≤ 15 / 2), hfloor2]
  have key : ((10 : ℕ) : ℚ) + (1 / 2) * ((tpl.sub32 5 10 : ℕ) : ℚ)
      = (4294967311 : ℚ) / 2 := by
    rw [hsub]
    norm_num
  have hc5 : ((((5 : ℕ) : ℤ) - ((10 : ℕ) : ℤ) : ℤ) : ℚ) = -5 := by
    push_cast
    norm_num
  have h1 : tpl.LerpU32 10 5 (1 / 2) = some 2147483655 := by
    unfold tpl.LerpU32
    rw [key]
    unfold tpl.u32cast
    rw [ht]
    rw [if_pos (by norm_num : (0 : ℤ) ≤ 2147483655 ∧ (2147483655 : ℤ) < 2 ^ 32)]
    decide
  have h2 : tpl.LerpU32Widened 10 5 (1 / 2) = some 7 := by
    unfold tpl.LerpU32Widened
    rw [hc5]
    rw [show ((10 : ℕ) : ℚ) + 1 / 2 * (-5) = (15 : ℚ) / 2 by norm_num]
    unfold tpl.u32cast
    rw [ht2]
    rw [if_pos (by norm_num : (0 : ℤ) ≤ 7 ∧ (7 : ℤ) < 2 ^ 32)]
    decide
  refine ⟨h1, h2, ?_⟩
  rw [h1, h2]
  simp

/-- C7 amended: at the integral instantiation `T = uint32_t`, `Lerp(A, B,
alpha)` computes `B - A` in `T` itself, with wraparound modulo `2^32` — there
is no widening of the subtraction; only the multiplication by `alpha` and the
final addition happen in floating point. Consequently the result agrees with
the widened computation `A + alpha * (B - A)` exactly when the subtraction
does not wrap, in particular whenever `A ≤ B`. -/
theorem lerpU32_wraparound (A B : ℕ) (alpha : ℚ) (hA : A < 2 ^ 32)
    (hB : B < 2 ^ 32) :
    tpl.LerpU32 A B alpha
      = tpl.u32cast ((A : ℚ)
          + alpha * (((((B : ℤ) - (A : ℤ)) % 2 ^ 32).toNat : ℕ) : ℚ))
    ∧ (A ≤ B → tpl.LerpU32 A B alpha = tpl.LerpU32Widened A B alpha) := by
  constructor
  · rfl
  · intro hAB
    have hp : (2 : ℤ) ^ 32 = 4294967296 := by norm_num
    have h0 : (0 : ℤ) ≤ (B : ℤ) - (A : ℤ) := by omega
    have hlt : (B : ℤ) - (A : ℤ) < 2 ^ 32 := by
      rw [hp]
      omega
    have h1 : ((B : ℤ) - (A : ℤ)) % 2 ^ 32 = (B : ℤ) - (A : ℤ) :=
      Int.emod_eq_of_lt h0 hlt
    unfold tpl.LerpU32 tpl.LerpU32Widened tpl.sub32
    rw [h1]
    congr 2
    rw [← Int.cast_natCast, Int.toNat_of_nonneg h0]

/-- Witness for C7's amended theorem: with `A = 0 ≤ 10 = B` the code and the
widened computation agree. -/
theorem lerpU32_wraparound_witness :
    tpl.LerpU32 0 10 (1 / 2) = tpl.LerpU32Widened 0 10 (1 / 2) :=
  (lerpU32_wraparound 0 10 (1 / 2) (by norm_num) (by norm_num)).2
    (by norm_num)

/-- Masking with a byte-wide mask only sees the low byte of the input. -/
theorem land_low_byte (a m : ℕ) (hm : m < 256) : a &&& m = a % 256 &&& m := by
  have h256 : (256 : ℕ) = 2 ^ 8 := by norm_num
  rw [h256]
  apply Nat.eq_of_testBit_eq
  intro i
  rw [Nat.testBit_and, Nat.testBit_and, Nat.testBit_mod_two_pow]
  by_cases hi : i < 8
  · simp [hi]
  · have h8 : (2 : ℕ) ^ 8 ≤ 2 ^ i := Nat.pow_le_pow_right (by norm_num) (by omega)
    have hb : m.testBit i = false := Nat.testBit_lt_two_pow (lt_of_lt_of_le hm h8)
    simp [hi, hb]

/-- `reverseBits` only depends on the low byte of its input. -/
theorem reverseBits_mod_256 (a : ℕ) : reverseBits a = reverseBits (a % 256) := by
  simp only [reverseBits]
  rw [land_low_byte a 0xF0 (by norm_num), land_low_byte a 0x0F (by norm_num)]

/-- On bytes, the three swap stages implement the 8-bit reversal. -/
theorem reverseBits_byte : ∀ r : ℕ, r < 256 → reverseBits r = bitRev8 r := by
  decide

/-- C8: for every input, `reverseBits(a)` is the 8-bit reversal of the low
byte of `a` (the three swap stages use byte-wide masks, so bits above bit 7
are discarded); in particular `reverseBits 0b11010010 = 0b01001011`. -/
theorem reverseBits_spec (a : ℕ) :
    reverseBits a = bitRev8 (a % 256)
    ∧ reverseBits 0b11010010 = 0b01001011 := by
  constructor
  · rw [reverseBits_mod_256]
    exact reverseBits_byte (a % 256) (Nat.mod_lt a (by norm_num))
  · decide

/-- Characterisation of the search loop: while the occurrence counter `iter`
has not passed `nth`, the loop returns the offset `i` plus the position of
the `(nth - iter + 1)`-th remaining occurrence, or `-1` if there is none. -/
theorem findNthAux_eq {T : Type} [DecidableEq T] (a : T) (n : ℤ) :
    ∀ (l : List T) (i iter : ℤ), 1 ≤ iter → iter ≤ n →
      findNthAux a n l i iter
        = ((occIndices a l)[(n - iter).toNat]?).elim (-1)
            (fun j => i + (j : ℤ)) := by
  intro l
  induction l with
  | nil =>
    intro i iter _ _
    simp [findNthAux, occIndices]
  | cons x xs ih =>
    intro i iter h1 h2
    by_cases hax : a = x
    · by_cases hit : iter = n
      · subst hit
        simp [findNthAux, occIndices, hax]
      · have hlt : iter < n := lt_of_le_of_ne h2 hit
        rw [show findNthAux a n (x :: xs) i iter
            = findNthAux a n xs (i + 1) (iter + 1) by
          simp [findNthAux, hax, hit]]
        rw [ih (i + 1) (iter + 1) (by omega) (by omega)]
        simp only [occIndices, if_pos hax]
        rw [show (n - iter).toNat = (n - (iter + 1)).toNat + 1 by omega,
          List.getElem?_cons_succ, List.getElem?_map]
        cases hocc : (occIndices a xs)[(n - (iter + 1)).toNat]? with
        | none => simp
        | some j =>
          simp
          omega
    · rw [show findNthAux a n (x :: xs) i iter
          = findNthAux a n xs (i + 1) iter by simp [findNthAux, hax]]
      rw [ih (i + 1) iter h1 h2]
      simp only [occIndices, if_neg hax]
      rw [List.getElem?_map]
      cases hocc : (occIndices a xs)[(n - iter).toNat]? with
      | none => simp
      | some j =>
        simp
        omega

/-- `occIndices` has one entry per occurrence of the element. -/
theorem occIndices_length {T : Type} [DecidableEq T] (a : T) (l : List T) :
    (occIndices a l).length = l.count a := by
  induction l with
  | nil => simp [occIndices]
  | cons x xs ih =>
    by_cases hax : a = x
    · subst hax
      rw [occIndices, if_pos rfl]
      simp [List.count_cons, ih]
    · rw [occIndices, if_neg hax]
      simp [List.count_cons, hax, ih]

/-- Every entry of `occIndices` is a position of the element. -/
theorem occIndices_mem {T : Type} [DecidableEq T] (a : T) (l : List T) :
    ∀ j ∈ occIndices a l, ∃ hj : j < l.length, l.get ⟨j, hj⟩ = a := by
  induction l with
  | nil => simp [occIndices]
  | cons x xs ih =>
    intro j hj
    by_cases hax : a = x
    · rw [occIndices, if_pos hax] at hj
      rcases List.mem_cons.mp hj with h0 | hm
      · subst h0
        exact ⟨by simp, hax.symm⟩
      · rcases List.mem_map.mp hm with ⟨j', hj', rfl⟩
        obtain ⟨hlt, hget⟩ := ih j' hj'
        exact ⟨by simpa using Nat.succ_lt_succ hlt, by simpa using hget⟩
    · rw [occIndices, if_neg hax] at hj
      rcases List.mem_map.mp hj with ⟨j', hj', rfl⟩
      obtain ⟨hlt, hget⟩ := ih j' hj'
      exact ⟨by simpa using Nat.succ_lt_succ hlt, by simpa using hget⟩

/-- The occurrence positions are listed in strictly increasing order. -/
theorem occIndices_sorted {T : Type} [DecidableEq T] (a : T) (l : List T) :
    (occIndices a l).Pairwise (· < ·) := by
  induction l with
  | nil => simp [occIndices]
  | cons x xs ih =>
    have hmap : ((occIndices a xs).map (· + 1)).Pairwise (· < ·) :=
      List.Pairwise.map _ (fun h => by omega) ih
    by_cases hax : a = x
    · rw [occIndices, if_pos hax]
      refine List.Pairwise.cons ?_ hmap
      intro j hj
      rcases List.mem_map.mp hj with ⟨j', _, rfl⟩
      omega
    · rw [occIndices, if_neg hax]
      exact hmap

/-- C9: for `n ≥ 1`, the nth-occurrence overload of `findInVector` returns
the position of the `n`-th (1-indexed) occurrence of the target when at
least `n` occurrences exist, and the sentinel `-1` when fewer exist; the
occurrence positions (`occIndices`) really are, in increasing order, the
positions holding the target, with one entry per occurrence. -/
theorem findInVector_nth_spec {T : Type} [DecidableEq T] (a : T)
    (l : List T) (n : ℤ) (h : 1 ≤ n) :
    ((l.count a : ℤ) < n → findInVector a l n = -1)
    ∧ (n ≤ (l.count a : ℤ) →
        ∃ hn : (n - 1).toNat < (occIndices a l).length,
          findInVector a l n = ((occIndices a l).get ⟨(n - 1).toNat, hn⟩ : ℤ))
    ∧ (occIndices a l).length = l.count a
    ∧ (∀ j ∈ occIndices a l, ∃ hj : j < l.length, l.get ⟨j, hj⟩ = a)
    ∧ (occIndices a l).Pairwise (· < ·) := by
  have main := findNthAux_eq a n l 0 1 (le_refl 1) h
  have hlen := occIndices_length a l
  refine ⟨?_, ?_, hlen, occIndices_mem a l, occIndices_sorted a l⟩
  · intro hcount
    have hnone : (occIndices a l)[(n - 1).toNat]? = none := by
      apply List.getElem?_eq_none
      omega
    rw [findInVector, main, hnone]
    rfl
  · intro hcount
    have hn : (n - 1).toNat < (occIndices a l).length := by omega
    refine ⟨hn, ?_⟩
    rw [findInVector, main, List.getElem?_eq_getElem hn]
    simp [List.get_eq_getElem]

/-- Witness for C9: the spec's concrete example, the second occurrence of 3
in `[1, 2, 3, 4, 3]` is at index 4. -/
theorem findInVector_nth_spec_witness :
    findInVector (3 : ℤ) [1, 2, 3, 4, 3] 2 = 4 := by
  obtain ⟨hn, he⟩ :=
    (findInVector_nth_spec (3 : ℤ) [1, 2, 3, 4, 3] 2 (by decide)).2.1 (by decide)
  rw [he]
  simp [occIndices]

/-- The loop can never report an occurrence once the counter has passed
`nth`: the counter only increments. -/
theorem findNthAux_gt {T : Type} [DecidableEq T] (a : T) (n : ℤ) :
    ∀ (l : List T) (i iter : ℤ), n < iter → findNthAux a n l i iter = -1 := by
  intro l
  induction l with
  | nil =>
    intro i iter _
    simp [findNthAux]
  | cons x xs ih =>
    intro i iter hgt
    by_cases hax : a = x
    · have hne : iter ≠ n := by omega
      rw [show findNthAux a n (x :: xs) i iter
          = findNthAux a n xs (i + 1) (iter + 1) by simp [findNthAux, hax, hne]]
      exact ih (i + 1) (iter + 1) (by omega)
    · rw [show findNthAux a n (x :: xs) i iter
          = findNthAux a n xs (i + 1) iter by simp [findNthAux, hax]]
      exact ih (i + 1) iter hgt

/-- C10: for every `n ≤ 0` the nth-occurrence search returns the sentinel
`-1`: the internal occurrence counter starts at 1 and only increments, so it
can never equal a non-positive `n`. -/
theorem findInVector_nonpositive {T : Type} [DecidableEq T] (a : T)
    (l : List T) (n : ℤ) (h : n ≤ 0) : findInVector a l n = -1 :=
  findNthAux_gt a n l 0 1 (by omega)

/-- Witness for C10: searching for the 0th occurrence returns `-1` even
though the element is present. -/
theorem findInVector_nonpositive_witness :
    findInVector (1 : ℤ) [1, 1] 0 = -1 :=
  findInVector_nonpositive 1 [1, 1] 0 (by decide)

end alx
